import Mathlib

/-!
Shallow embedding of the Mixor job-orchestration core.

The frontend component `InstrumentalMaker` (src/frontend/src/components/
InstrumentalMaker.jsx and its fuller variant src/unnamed/part_001) is
embedded directly: the progress estimator, the polling effect, the
submission handler and the URL-field editing are translated into pure Lean
functions over an explicit client state.  JavaScript numbers are modelled
as rationals (`ℚ`).  The backend job store and scheduler are not part of
the source tree; where a claim depends on them they are modelled from the
specification, with a doc comment saying so.
-/

namespace Mixor

/-- Progress-estimation state of the `InstrumentalMaker` component:
`avgVideoTime` is the smoothed per-item duration in ms (seeded with
180000), `lastVideoStartTime` the start timestamp of the item in flight
(`none` before any item has started). -/
structure EstimatorState where
  avgVideoTime : ℚ
  lastVideoStartTime : Option ℚ
deriving Repr, DecidableEq

/-- Initial estimator state: `useState(180000)` and `useState(null)`. -/
def initialEstimator : EstimatorState :=
  { avgVideoTime := 180000, lastVideoStartTime := none }

/-- One tick of the estimation interval: `Math.min((elapsed / avgVideoTime)
* 100, 99)`; the effect returns early when no item has started, leaving the
estimated progress at its initial 0, which we render as result 0. -/
def estimate (s : EstimatorState) (now : ℚ) : ℚ :=
  match s.lastVideoStartTime with
  | none => 0
  | some t => min ((now - t) / s.avgVideoTime * 100) 99

/-- New-video branch of the polling effect: when a previous start time
exists, `setAvgVideoTime(prev => (prev * 0.7) + (timeTaken * 0.3))`; in
both cases `setLastVideoStartTime(now)`. -/
def onItemComplete (s : EstimatorState) (now : ℚ) : EstimatorState :=
  match s.lastVideoStartTime with
  | none => { s with lastVideoStartTime := some now }
  | some t =>
      { avgVideoTime := s.avgVideoTime * (7 / 10) + (now - t) * (3 / 10),
        lastVideoStartTime := some now }

/- Helper lemmas about the estimator. -/

theorem estimate_le_99 (s : EstimatorState) (now : ℚ) : estimate s now ≤ 99 := by
  unfold estimate
  cases s.lastVideoStartTime with
  | none => norm_num
  | some t => exact min_le_right _ _

theorem avg_pos_fold (nows : List ℚ) :
    ∀ (s : EstimatorState) (t : ℚ), s.lastVideoStartTime = some t →
      0 < s.avgVideoTime → List.Chain' (fun a b => a < b) (t :: nows) →
      0 < (List.foldl onItemComplete s nows).avgVideoTime := by
  induction nows with
  | nil => intro s t _ havg _; simpa using havg
  | cons now rest ih =>
      intro s t hlast havg hchain
      have hlt : t < now := (List.chain'_cons.mp hchain).1
      have hchain' : List.Chain' (fun a b => a < b) (now :: rest) :=
        (List.chain'_cons.mp hchain).2
      have hstep : onItemComplete s now =
          { avgVideoTime := s.avgVideoTime * (7 / 10) + (now - t) * (3 / 10),
            lastVideoStartTime := some now } := by
        unfold onItemComplete; rw [hlast]
      have hpos : 0 < (onItemComplete s now).avgVideoTime := by
        rw [hstep]
        have h1 : 0 < now - t := by linarith
        have : (0 : ℚ) < s.avgVideoTime * (7 / 10) + (now - t) * (3 / 10) := by
          positivity
        simpa using this
      have hlast' : (onItemComplete s now).lastVideoStartTime = some now := by
        rw [hstep]
      simpa using ih (onItemComplete s now) now hlast' hpos hchain'

/-- C1: with a positive average, `estimate(now)` is 0 when no item has
started, and otherwise `min(99, 100 * (now - item_start_time) /
avg_duration_ms)`; with avg 180000, elapsed 90000 gives 50 and elapsed
200000 gives 99. -/
theorem estimate_spec (s : EstimatorState) (now : ℚ) (havg : 0 < s.avgVideoTime) :
    (s.lastVideoStartTime = none → estimate s now = 0) ∧
    (∀ t, s.lastVideoStartTime = some t →
      estimate s now = min 99 (100 * (now - t) / s.avgVideoTime)) ∧
    (∀ t, s.lastVideoStartTime = some t → s.avgVideoTime = 180000 →
      (now - t = 90000 → estimate s now = 50) ∧
      (now - t = 200000 → estimate s now = 99)) := by
  refine ⟨?_, ?_, ?_⟩
  · intro h; unfold estimate; rw [h]
  · intro t h; unfold estimate; rw [h, min_comm]
    ring_nf
  · intro t h h180
    constructor
    · intro he
      unfold estimate
      rw [h]
      simp only [he, h180]
      norm_num
    · intro he
      unfold estimate
      rw [h]
      simp only [he, h180]
      norm_num [min_def]

theorem estimate_spec_witness :
    estimate ⟨180000, some 0⟩ 90000 = 50 ∧ estimate ⟨180000, some 0⟩ 200000 = 99 :=
  ⟨((estimate_spec ⟨180000, some 0⟩ 90000 (by norm_num)).2.2 0 rfl rfl).1 (by norm_num),
   ((estimate_spec ⟨180000, some 0⟩ 200000 (by norm_num)).2.2 0 rfl rfl).2 (by norm_num)⟩

/-- C2: when an item completes at time `now` with elapsed `now - t`, the
average becomes `avg * 0.7 + elapsed * 0.3`, the item timer is reset to
`now`, and any later estimate is computed from the updated average and the
new start time (so the update governs the next item, not the finished
one); avg 180000 with elapsed 60000 gives 144000. -/
theorem onItemComplete_spec (s : EstimatorState) (t now now2 : ℚ)
    (h : s.lastVideoStartTime = some t) :
    (onItemComplete s now).avgVideoTime =
      s.avgVideoTime * (7 / 10) + (now - t) * (3 / 10) ∧
    (onItemComplete s now).lastVideoStartTime = some now ∧
    estimate (onItemComplete s now) now2 =
      min ((now2 - now) / (s.avgVideoTime * (7 / 10) + (now - t) * (3 / 10)) * 100) 99 ∧
    (s.avgVideoTime = 180000 → now - t = 60000 →
      (onItemComplete s now).avgVideoTime = 144000) := by
  have hstep : onItemComplete s now =
      { avgVideoTime := s.avgVideoTime * (7 / 10) + (now - t) * (3 / 10),
        lastVideoStartTime := some now } := by
    unfold onItemComplete; rw [h]
  refine ⟨by rw [hstep], by rw [hstep], ?_, ?_⟩
  · rw [hstep]; unfold estimate; rfl
  · intro h180 he
    rw [hstep]
    simp only
    rw [h180, he]
    norm_num

theorem onItemComplete_spec_witness :
    (onItemComplete ⟨180000, some 0⟩ 60000).avgVideoTime = 144000 :=
  (onItemComplete_spec ⟨180000, some 0⟩ 0 60000 0 rfl).2.2.2 rfl (by norm_num)

/-- C9: the updated average is a convex combination of the old average and
the elapsed duration, hence lies between their min and max; and if the
old average is positive and every measured elapsed duration along a run is
positive, the average — the estimate's divisor — stays strictly positive. -/
theorem avg_update_convex (s : EstimatorState) (t now : ℚ)
    (h : s.lastVideoStartTime = some t) :
    min s.avgVideoTime (now - t) ≤ (onItemComplete s now).avgVideoTime ∧
    (onItemComplete s now).avgVideoTime ≤ max s.avgVideoTime (now - t) ∧
    (0 < s.avgVideoTime → 0 < now - t → 0 < (onItemComplete s now).avgVideoTime) ∧
    (∀ nows : List ℚ, 0 < s.avgVideoTime →
      List.Chain' (fun a b => a < b) (t :: nows) →
      0 < (List.foldl onItemComplete s nows).avgVideoTime) := by
  have hstep : onItemComplete s now =
      { avgVideoTime := s.avgVideoTime * (7 / 10) + (now - t) * (3 / 10),
        lastVideoStartTime := some now } := by
    unfold onItemComplete; rw [h]
  refine ⟨?_, ?_, ?_, ?_⟩
  · rw [hstep]
    rcases le_total s.avgVideoTime (now - t) with hle | hle
    · have := min_eq_left hle
      rw [this]; nlinarith
    · have := min_eq_right hle
      rw [this]; nlinarith
  · rw [hstep]
    rcases le_total s.avgVideoTime (now - t) with hle | hle
    · have := max_eq_right hle
      rw [this]; nlinarith
    · have := max_eq_left hle
      rw [this]; nlinarith
  · intro h1 h2; rw [hstep]; simp only; positivity
  · intro nows hpos hchain
    exact avg_pos_fold nows s t h hpos hchain

theorem avg_update_convex_witness :
    min (180000 : ℚ) 60000 ≤ (onItemComplete ⟨180000, some 0⟩ 60000).avgVideoTime ∧
    (onItemComplete ⟨180000, some 0⟩ 60000).avgVideoTime ≤ max 180000 60000 :=
  ⟨by simpa using (avg_update_convex ⟨180000, some 0⟩ 0 60000 rfl).1,
   by simpa using (avg_update_convex ⟨180000, some 0⟩ 0 60000 rfl).2.1⟩

/-- Result entry as delivered to the frontend: a processed item with a
title and artifact paths, or a failed item with a reason. -/
inductive ItemResult where
  | success (title : String) (paths : List String)
  | failure (reason : String)
deriving Repr, DecidableEq

def ItemResult.isSuccess : ItemResult → Bool
  | .success _ _ => true
  | .failure _ => false

/-- Status payload the polling client reads from `api.getJobStatus`. -/
structure StatusResponse where
  status : String
  current_video : Nat
  total_videos : Nat
  message : String
  results : List ItemResult
deriving Repr, DecidableEq

/-- Terminal-status test of the polling effect:
`status.status === 'complete' || 'completed' || 'failed'`. -/
def isTerminalStatus (st : String) : Bool :=
  st == "complete" || st == "completed" || st == "failed"

/-- Leading-segment test on character lists: true when `pat` occurs at the
front of the first list. -/
def leadsWith : List Char → List Char → Bool
  | _, [] => true
  | [], _ :: _ => false
  | c :: cs, p :: ps => (c == p) && leadsWith cs ps

/-- Occurrence test on character lists: true when `pat` occurs at some
position of the first list. -/
def hasSubList : List Char → List Char → Bool
  | [], pat => leadsWith [] pat
  | c :: cs, pat => leadsWith (c :: cs) pat || hasSubList cs pat

/-- Substring test modelling `String.prototype.includes`, used by the
polling catch block as `error.message.includes` applied to "Job not found". -/
def containsSubstr (s pat : String) : Bool :=
  hasSubList s.data pat.data

/-- Local state of the `InstrumentalMaker` component, restricted to the
fields the processing claims touch; `polling` records whether the status
interval is still installed (true between `setJobId` and
`clearInterval`). -/
structure ClientState where
  isProcessing : Bool
  jobId : Option String
  progress : ℚ
  currentVideo : Nat
  totalVideos : Nat
  statusMessage : String
  results : List ItemResult
  estimatedProgress : ℚ
  estimator : EstimatorState
  polling : Bool
deriving Repr, DecidableEq

/-- Initial component state: the `useState` initializers. -/
def initClient : ClientState :=
  { isProcessing := false, jobId := none, progress := 0, currentVideo := 0,
    totalVideos := 0, statusMessage := "", results := [],
    estimatedProgress := 0, estimator := initialEstimator, polling := false }

/-- Events driving the component: a successful submission (`handleProcess`
success path plus `setJobId`), one tick of the 500ms estimation interval,
one successful poll of the 2s status interval, and one poll error. -/
inductive ClientEvent where
  | startJob (now : ℚ) (jid : String)
  | estimateTick (now : ℚ)
  | pollStatus (st : StatusResponse) (now : ℚ)
  | pollError (msg : String)
deriving Repr, DecidableEq

/-- One transition of the component state.  `startJob` replays the state
updates of `handleProcess`'s success path; `estimateTick` replays the
estimation interval body (guarded by `isProcessing` and a non-null start
time); `pollStatus` replays the polling callback — the new-video branch,
then either the terminal branch (progress 100, interval cleared) or
`setProgress(estimatedProgress)` with the callback's captured value;
`pollError` replays the catch block, resetting the job state when the
message contains "Job not found". -/
def stepClient (c : ClientState) : ClientEvent → ClientState
  | .startJob now jid =>
      { c with isProcessing := true, progress := 0, results := [],
               estimatedProgress := 0,
               estimator := { c.estimator with lastVideoStartTime := some now },
               jobId := some jid, polling := true }
  | .estimateTick now =>
      if c.isProcessing = true ∧ c.estimator.lastVideoStartTime ≠ none then
        { c with estimatedProgress := estimate c.estimator now }
      else c
  | .pollStatus st now =>
      if c.polling = true then
        let c1 :=
          if st.current_video ≠ c.currentVideo ∧ 0 < st.current_video then
            { c with currentVideo := st.current_video,
                     totalVideos := st.total_videos,
                     statusMessage := st.message,
                     estimator := onItemComplete c.estimator now,
                     estimatedProgress := 0 }
          else
            { c with currentVideo := st.current_video,
                     totalVideos := st.total_videos,
                     statusMessage := st.message }
        if isTerminalStatus st.status = true then
          { c1 with isProcessing := false, results := st.results,
                    progress := 100, estimatedProgress := 100, polling := false }
        else
          { c1 with progress := c.estimatedProgress }
      else c
  | .pollError msg =>
      if c.polling = true ∧ containsSubstr msg "Job not found" = true then
        { c with isProcessing := false, jobId := none, progress := 0,
                 currentVideo := 0, totalVideos := 0,
                 statusMessage := "Server restarted. Please submit a new request.",
                 polling := false }
      else c

theorem stepClient_le99 (c : ClientState) (e : ClientEvent)
    (hp : c.progress ≤ 99) (he : c.estimatedProgress ≤ 99)
    (hterm : ∀ st now, e = ClientEvent.pollStatus st now →
      isTerminalStatus st.status = false) :
    (stepClient c e).progress ≤ 99 ∧ (stepClient c e).estimatedProgress ≤ 99 := by
  cases e with
  | startJob now jid => constructor <;> norm_num [stepClient]
  | estimateTick now =>
      simp only [stepClient]
      split_ifs with h
      · exact ⟨hp, estimate_le_99 _ _⟩
      · exact ⟨hp, he⟩
  | pollStatus st now =>
      have hterm' : isTerminalStatus st.status = false := hterm st now rfl
      simp only [stepClient, hterm']
      split_ifs with h1 h2 <;> simp_all
  | pollError msg =>
      simp only [stepClient]
      split_ifs with h
      · exact ⟨by norm_num, he⟩
      · exact ⟨hp, he⟩

theorem foldl_le99 (events : List ClientEvent) :
    ∀ c : ClientState, c.progress ≤ 99 → c.estimatedProgress ≤ 99 →
      (∀ st now, ClientEvent.pollStatus st now ∈ events →
        isTerminalStatus st.status = false) →
      (List.foldl stepClient c events).progress ≤ 99 ∧
      (List.foldl stepClient c events).estimatedProgress ≤ 99 := by
  induction events with
  | nil => intro c hp he _; exact ⟨hp, he⟩
  | cons e rest ih =>
      intro c hp he hterm
      have hstep := stepClient_le99 c e hp he
        (fun st now heq => hterm st now (by rw [heq]; exact List.mem_cons_self _ _))
      exact ih (stepClient c e) hstep.1 hstep.2
        (fun st now hmem => hterm st now (List.mem_cons_of_mem _ hmem))

/-- C3: along any event trace in which no poll ever reported a terminal
status, the displayed progress and the estimated progress stay at most 99,
hence strictly below 100; and a poll that does report a terminal status
sets progress to exactly 100. -/
theorem progress_capped_before_completion (events : List ClientEvent)
    (h : ∀ st now, ClientEvent.pollStatus st now ∈ events →
      isTerminalStatus st.status = false) :
    ((List.foldl stepClient initClient events).progress ≤ 99 ∧
     (List.foldl stepClient initClient events).estimatedProgress ≤ 99) ∧
    (∀ (c : ClientState) (st : StatusResponse) (now : ℚ),
      c.polling = true → isTerminalStatus st.status = true →
      (stepClient c (ClientEvent.pollStatus st now)).progress = 100) := by
  constructor
  · exact foldl_le99 events initClient (by norm_num [initClient])
      (by norm_num [initClient]) h
  · intro c st now hpoll hterm
    simp only [stepClient, hpoll, hterm]
    split_ifs <;> rfl

theorem progress_capped_before_completion_witness :
    (List.foldl stepClient initClient
      [ClientEvent.startJob 0 "job-1", ClientEvent.estimateTick 500]).progress ≤ 99 :=
  (progress_capped_before_completion
    [ClientEvent.startJob 0 "job-1", ClientEvent.estimateTick 500]
    (by intro st now hmem; simp at hmem)).1.1

/-- Modelled from the spec: the job lifecycle states of §3 (the backend
implementing them is not part of the source tree). -/
inductive JobStatus where
  | queued
  | running
  | completed
  | failed
  | cancelled
deriving Repr, DecidableEq

/-- Modelled from the spec: the JobRecord of §3, restricted to the fields
the scheduler and status claims use. -/
structure JobRecord where
  status : JobStatus
  currentIndex : Nat
  totalItems : Nat
  message : String
  results : List ItemResult
  cancelRequested : Bool
deriving Repr, DecidableEq

/-- Modelled from the spec: wire form of a job status, as the frontend
compares it (§6 poll-status interface). -/
def statusString : JobStatus → String
  | .queued => "queued"
  | .running => "running"
  | .completed => "completed"
  | .failed => "failed"
  | .cancelled => "cancelled"

/-- Modelled from the spec: the Status API projection of a job record
(§4.4): status, current item, totals, message and results so far. -/
def projectRecord (r : JobRecord) : StatusResponse :=
  { status := statusString r.status, current_video := r.currentIndex,
    total_videos := r.totalItems, message := r.message, results := r.results }

/-- Modelled from the spec: outcome of a status query — a snapshot, or the
distinct NotFound outcome for an unrecognized id. -/
inductive StatusResult where
  | ok (st : StatusResponse)
  | notFound
deriving Repr, DecidableEq

/-- Modelled from the spec: `get(job id) → snapshot | NotFound` over the
job-store mapping (§4.1, §4.4). -/
def getJobStatus (store : List (String × JobRecord)) (id : String) : StatusResult :=
  match store.lookup id with
  | none => StatusResult.notFound
  | some r => StatusResult.ok (projectRecord r)

/-- C5: a status query for an id absent from the store yields NotFound and
never any ok payload (in particular never one with status "failed"); and
the polling client, on an error whose message contains "Job not found",
clears its local job state — job id, processing flag, progress and
counters — and stops polling. -/
theorem notFound_distinct_and_resets (store : List (String × JobRecord))
    (id : String) (c : ClientState)
    (h : store.lookup id = none) (hp : c.polling = true) :
    getJobStatus store id = StatusResult.notFound ∧
    (∀ st, getJobStatus store id ≠ StatusResult.ok st) ∧
    ((stepClient c (ClientEvent.pollError "Job not found")).isProcessing = false ∧
     (stepClient c (ClientEvent.pollError "Job not found")).jobId = none ∧
     (stepClient c (ClientEvent.pollError "Job not found")).progress = 0 ∧
     (stepClient c (ClientEvent.pollError "Job not found")).currentVideo = 0 ∧
     (stepClient c (ClientEvent.pollError "Job not found")).totalVideos = 0 ∧
     (stepClient c (ClientEvent.pollError "Job not found")).polling = false) := by
  have hget : getJobStatus store id = StatusResult.notFound := by
    unfold getJobStatus; rw [h]
  refine ⟨hget, ?_, ?_⟩
  · intro st hok; rw [hget] at hok; exact StatusResult.noConfusion hok
  · have hsub : containsSubstr "Job not found" "Job not found" = true := by decide
    simp only [stepClient, hp, hsub]
    norm_num

theorem notFound_distinct_and_resets_witness :
    getJobStatus [] "job-xyz" = StatusResult.notFound ∧
    (stepClient { initClient with polling := true }
      (ClientEvent.pollError "Job not found")).polling = false :=
  ⟨(notFound_distinct_and_resets [] "job-xyz" { initClient with polling := true }
      rfl rfl).1,
   (notFound_distinct_and_resets [] "job-xyz" { initClient with polling := true }
      rfl rfl).2.2.2.2.2.2.2⟩

/-- Request built by `handleProcess`: an uploaded-file submission, or a
YouTube submission carrying the non-blank URLs. -/
inductive SubmitRequest where
  | fileUpload (file : String)
  | youtube (video_urls : List String)
deriving Repr, DecidableEq

/-- Outcome of `handleProcess`: `rejected` is the alert-and-return path,
before any API call; `submitted` carries the request sent to the API. -/
inductive SubmitOutcome where
  | rejected
  | submitted (req : SubmitRequest)
deriving Repr, DecidableEq

/-- Whitespace-stripping modelling `String.prototype.trim`, written over
the character list so it evaluates by kernel reduction. -/
def jsTrim (s : String) : String :=
  String.mk
    (((s.data.dropWhile fun c => c.isWhitespace).reverse.dropWhile
        fun c => c.isWhitespace).reverse)

/-- Input validation and dispatch of `handleProcess`: `hasUrls` is
`urls.some(url => url.trim())` (a trimmed URL is kept when non-blank),
`hasFile` whether a file was uploaded; if neither holds the submission is
rejected before any job exists, otherwise the file upload or the filtered
URL payload is submitted. -/
def handleProcess (urls : List String) (uploadedFile : Option String) :
    SubmitOutcome :=
  let hasUrls := urls.any (fun u => jsTrim u ≠ "")
  let hasFile := uploadedFile.isSome
  if hasUrls = false ∧ hasFile = false then SubmitOutcome.rejected
  else
    match uploadedFile with
    | some f => SubmitOutcome.submitted (SubmitRequest.fileUpload f)
    | none =>
        SubmitOutcome.submitted
          (SubmitRequest.youtube (urls.filter (fun u => jsTrim u ≠ "")))

/-- Number of items a request carries. -/
def SubmitRequest.itemCount : SubmitRequest → Nat
  | .fileUpload _ => 1
  | .youtube l => l.length

/-- C4: a submission is rejected exactly when every URL is blank and no
file is uploaded — so no request reaches the backend and no job is
created — and every submitted request carries at least one item. -/
theorem handleProcess_validates (urls : List String) (uploadedFile : Option String) :
    (handleProcess urls uploadedFile = SubmitOutcome.rejected ↔
      (∀ u ∈ urls, jsTrim u = "") ∧ uploadedFile = none) ∧
    (∀ req, handleProcess urls uploadedFile = SubmitOutcome.submitted req →
      1 ≤ req.itemCount) := by
  constructor
  · unfold handleProcess
    dsimp only
    split_ifs with h
    · simp only [true_iff]
      obtain ⟨hu, hf⟩ := h
      constructor
      · intro u hu'
        by_contra hne
        have : urls.any (fun u => jsTrim u ≠ "") = true :=
          List.any_eq_true.mpr ⟨u, hu', by simpa using hne⟩
        rw [this] at hu; exact Bool.noConfusion hu
      · cases uploadedFile with
        | none => rfl
        | some f => simp [Option.isSome] at hf
    · constructor
      · intro hc
        cases uploadedFile <;> simp_all
      · intro ⟨hall, hnone⟩
        exfalso
        apply h
        subst hnone
        refine ⟨?_, rfl⟩
        by_contra hne
        have hany : urls.any (fun u => jsTrim u ≠ "") = true := by
          cases hx : urls.any (fun u => jsTrim u ≠ "") with
          | true => rfl
          | false => exact absurd hx hne
        obtain ⟨u, hu, hne'⟩ := List.any_eq_true.mp hany
        exact (by simpa using hne' : jsTrim u ≠ "") (hall u hu)
  · intro req hreq
    unfold handleProcess at hreq
    dsimp only at hreq
    split_ifs at hreq with h
    · cases hf : uploadedFile with
      | some f =>
          rw [hf] at hreq
          simp only [SubmitOutcome.submitted.injEq] at hreq
          rw [← hreq]
          rfl
      | none =>
          rw [hf] at hreq
          simp only [SubmitOutcome.submitted.injEq] at hreq
          rw [← hreq]
          have hany : urls.any (fun u => jsTrim u ≠ "") = true := by
            rw [hf] at h
            cases hx : urls.any (fun u => jsTrim u ≠ "") with
            | true => rfl
            | false => exact absurd ⟨hx, rfl⟩ h
          obtain ⟨u, hu, hne⟩ := List.any_eq_true.mp hany
          have hmem : u ∈ urls.filter (fun u => jsTrim u ≠ "") :=
            List.mem_filter.mpr ⟨hu, hne⟩
          have : urls.filter (fun u => jsTrim u ≠ "") ≠ [] :=
            List.ne_nil_of_mem hmem
          simpa [SubmitRequest.itemCount, Nat.succ_le_iff, List.length_pos]
            using this

/-- Editing operations on the URL field list. -/
inductive UrlOp where
  | add
  | remove (index : Nat)
  | update (index : Nat) (value : String)
deriving Repr, DecidableEq

/-- addUrlField, removeUrlField and updateUrl of the component: append an
empty field; drop the field at the given position, substituting a single
empty field when nothing would remain; replace the field at a position. -/
def applyUrlOp (urls : List String) : UrlOp → List String
  | .add => urls ++ [""]
  | .remove index =>
      let newUrls := (urls.enum.filter (fun p => p.1 ≠ index)).map (fun p => p.2)
      if 0 < newUrls.length then newUrls else [""]
  | .update index value => urls.set index value

theorem applyUrlOp_pos (urls : List String) (op : UrlOp)
    (h : 0 < urls.length) : 0 < (applyUrlOp urls op).length := by
  cases op with
  | add => simp [applyUrlOp]
  | remove index =>
      simp only [applyUrlOp]
      split_ifs with hlen
      · exact hlen
      · simp
  | update index value => simpa [applyUrlOp] using h

theorem foldl_urls_pos (ops : List UrlOp) :
    ∀ urls : List String, 0 < urls.length →
      0 < (List.foldl applyUrlOp urls ops).length := by
  induction ops with
  | nil => intro urls h; simpa using h
  | cons op rest ih =>
      intro urls h
      exact ih (applyUrlOp urls op) (applyUrlOp_pos urls op h)

/-- C10: the URL field list starts as a single empty field, addUrlField
appends one entry, updateUrl preserves the length, and after any sequence
of add/remove/update operations the list still has at least one entry. -/
theorem urls_never_empty (ops : List UrlOp) (urls : List String)
    (index : Nat) (value : String) :
    0 < (List.foldl applyUrlOp [""] ops).length ∧
    (applyUrlOp urls UrlOp.add).length = urls.length + 1 ∧
    (applyUrlOp urls (UrlOp.update index value)).length = urls.length := by
  refine ⟨foldl_urls_pos ops [""] (by norm_num), ?_, ?_⟩
  · simp [applyUrlOp]
  · simp [applyUrlOp]

/-- Modelled from the spec: which lifecycle states are terminal (§3). -/
def JobStatus.isTerminal : JobStatus → Bool
  | .completed => true
  | .failed => true
  | .cancelled => true
  | .queued => false
  | .running => false

/-- Position of a status along the forward-only lifecycle
queued → running → terminal. -/
def statusRank : JobStatus → Nat
  | .queued => 0
  | .running => 1
  | .completed => 2
  | .failed => 2
  | .cancelled => 2

/-- Modelled from the spec: the fresh record inserted by Job Store.create
(§4.1): status queued, empty results, nothing started. -/
def initJob (n : Nat) : JobRecord :=
  { status := JobStatus.queued, currentIndex := 0, totalItems := n,
    message := "", results := [], cancelRequested := false }

/-- Modelled from the spec: one iteration of the per-job loop (§4.3 steps
2b–2d) processing one item: the message announces the item, the item's
result is appended, the index advances, and a cancellation requested while
this item was in flight (`cancel` applied to its index) is latched. -/
def processItem (cancel : Nat → Bool) (r : ItemResult) (s : JobRecord) : JobRecord :=
  { s with
    message := "processing item " ++ toString (s.currentIndex + 1) ++ "/" ++
      toString s.totalItems,
    results := s.results ++ [r],
    currentIndex := s.currentIndex + 1,
    cancelRequested := s.cancelRequested || cancel s.currentIndex }

/-- Modelled from the spec: §4.3 step 3 — when the loop ran out of items,
completed if at least one item succeeded, else failed. -/
def finishJob (s : JobRecord) : JobRecord :=
  { s with status :=
      if s.results.any ItemResult.isSuccess then JobStatus.completed
      else JobStatus.failed }

/-- Modelled from the spec: §4.3 step 2a — a latched cancel request stops
the loop at the item boundary. -/
def cancelJob (s : JobRecord) : JobRecord :=
  { s with status := JobStatus.cancelled }

/-- Modelled from the spec: the loop of §4.3 run from an already-running
record, returning the record states it writes, in order.  `cancel i`
says whether cancellation gets requested while the item of index `i` is
in flight. -/
def runTrace (cancel : Nat → Bool) : List ItemResult → JobRecord → List JobRecord
  | [], s => [finishJob s]
  | r :: rest, s =>
      if s.cancelRequested then [cancelJob s]
      else
        let s' := processItem cancel r s
        s' :: runTrace cancel rest s'

/-- Modelled from the spec: the same loop, returning only the final
record. -/
def runLoop (cancel : Nat → Bool) : List ItemResult → JobRecord → JobRecord
  | [], s => finishJob s
  | r :: rest, s =>
      if s.cancelRequested then cancelJob s
      else runLoop cancel rest (processItem cancel r s)

/-- Modelled from the spec: the full observable record sequence of one
job — created queued, set running (§4.3 step 1), then the loop's writes. -/
def jobTrace (cancel : Nat → Bool) (items : List ItemResult) : List JobRecord :=
  initJob items.length ::
    { initJob items.length with status := JobStatus.running } ::
      runTrace cancel items { initJob items.length with status := JobStatus.running }

/-- Modelled from the spec: the terminal record of one job. -/
def runJob (cancel : Nat → Bool) (items : List ItemResult) : JobRecord :=
  runLoop cancel items { initJob items.length with status := JobStatus.running }

theorem runLoop_totalItems (cancel : Nat → Bool) :
    ∀ (items : List ItemResult) (s : JobRecord),
      (runLoop cancel items s).totalItems = s.totalItems := by
  intro items
  induction items with
  | nil => intro s; rfl
  | cons r rest ih =>
      intro s
      simp only [runLoop]
      split_ifs with h
      · rfl
      · rw [ih]; simp [processItem]

theorem runLoop_no_cancel (cancel : Nat → Bool) (hc : ∀ i, cancel i = false) :
    ∀ (items : List ItemResult) (s : JobRecord), s.cancelRequested = false →
      (runLoop cancel items s).results = s.results ++ items ∧
      (runLoop cancel items s).currentIndex = s.currentIndex + items.length ∧
      (runLoop cancel items s).status =
        (if (s.results ++ items).any ItemResult.isSuccess then JobStatus.completed
         else JobStatus.failed) := by
  intro items
  induction items with
  | nil =>
      intro s hs
      refine ⟨by simp [runLoop, finishJob], by simp [runLoop, finishJob],
        by simp [runLoop, finishJob]⟩
  | cons r rest ih =>
      intro s hs
      have hs' : (processItem cancel r s).cancelRequested = false := by
        simp [processItem, hs, hc]
      obtain ⟨h1, h2, h3⟩ := ih (processItem cancel r s) hs'
      simp only [runLoop, hs, Bool.false_eq_true, if_false]
      refine ⟨?_, ?_, ?_⟩
      · rw [h1]; simp [processItem]
      · rw [h2]; simp [processItem]; omega
      · rw [h3]; simp [processItem]

/-- C6: when no cancellation is ever requested the loop runs every item:
all results are recorded in order, the index reaches the total, and the
final status is completed exactly when at least one item succeeded and
failed exactly when every item failed. -/
theorem job_completed_iff_any_success (cancel : Nat → Bool)
    (items : List ItemResult) (hc : ∀ i, cancel i = false) :
    (runJob cancel items).results = items ∧
    (runJob cancel items).currentIndex = items.length ∧
    (runJob cancel items).totalItems = items.length ∧
    (runJob cancel items).status =
      (if items.any ItemResult.isSuccess then JobStatus.completed
       else JobStatus.failed) := by
  obtain ⟨h1, h2, h3⟩ := runLoop_no_cancel cancel hc items
    { initJob items.length with status := JobStatus.running } rfl
  refine ⟨?_, ?_, ?_, ?_⟩
  · rw [runJob, h1]; simp [initJob]
  · rw [runJob, h2]; simp [initJob]
  · rw [runJob, runLoop_totalItems]; simp [initJob]
  · rw [runJob, h3]; simp [initJob]

theorem job_completed_iff_any_success_witness :
    (runJob (fun _ => false)
      [ItemResult.success "a" ["a.mp3"], ItemResult.failure "boom",
       ItemResult.success "c" ["c.mp3"]]).status = JobStatus.completed ∧
    (runJob (fun _ => false)
      [ItemResult.success "a" ["a.mp3"], ItemResult.failure "boom",
       ItemResult.success "c" ["c.mp3"]]).results.length = 3 ∧
    (runJob (fun _ => false)
      [ItemResult.success "a" ["a.mp3"], ItemResult.failure "boom",
       ItemResult.success "c" ["c.mp3"]]).results[1]? =
      some (ItemResult.failure "boom") ∧
    (runJob (fun _ => false)
      [ItemResult.success "a" ["a.mp3"], ItemResult.failure "boom",
       ItemResult.success "c" ["c.mp3"]]).currentIndex = 3 := by
  obtain ⟨h1, h2, _, h4⟩ := job_completed_iff_any_success (fun _ => false)
    [ItemResult.success "a" ["a.mp3"], ItemResult.failure "boom",
     ItemResult.success "c" ["c.mp3"]] (fun _ => rfl)
  refine ⟨?_, ?_, ?_, ?_⟩
  · rw [h4]; decide
  · rw [h1]; rfl
  · rw [h1]; rfl
  · rw [h2]; rfl

theorem runLoop_cancel_at (m : Nat) :
    ∀ (k : Nat) (items : List ItemResult) (s : JobRecord),
      s.cancelRequested = false → m = s.currentIndex + k → k + 1 < items.length →
      (runLoop (fun i => i == m) items s).status = JobStatus.cancelled ∧
      (runLoop (fun i => i == m) items s).results = s.results ++ items.take (k + 1) ∧
      (runLoop (fun i => i == m) items s).currentIndex = s.currentIndex + (k + 1) := by
  intro k
  induction k with
  | zero =>
      intro items s hs hm hlen
      cases items with
      | nil => simp at hlen
      | cons r rest =>
          cases rest with
          | nil => simp at hlen
          | cons r2 rest2 =>
              have hflag : (processItem (fun i => i == m) r s).cancelRequested = true := by
                simp [processItem, hs, hm]
              simp only [runLoop, hs, Bool.false_eq_true, if_false, hflag, if_true]
              refine ⟨rfl, ?_, ?_⟩
              · simp [cancelJob, processItem]
              · simp [cancelJob, processItem]
  | succ k ih =>
      intro items s hs hm hlen
      cases items with
      | nil => simp at hlen
      | cons r rest =>
          have hne : (s.currentIndex == m) = false := by
            simp only [beq_eq_false_iff_ne]
            omega
          have hs' : (processItem (fun i => i == m) r s).cancelRequested = false := by
            simp [processItem, hs, hne]
          have hm' : m = (processItem (fun i => i == m) r s).currentIndex + k := by
            simp [processItem]; omega
          have hlen' : k + 1 < rest.length := by
            simp at hlen; omega
          obtain ⟨h1, h2, h3⟩ := ih rest (processItem (fun i => i == m) r s) hs' hm' hlen'
          simp only [runLoop, hs, Bool.false_eq_true, if_false]
          refine ⟨h1, ?_, ?_⟩
          · rw [h2]; simp [processItem, List.take_succ_cons]
          · rw [h3]; simp [processItem]; omega

/-- C7: if cancellation is requested while the item of index k is in
flight and later items remain, that item still finishes (its result is
the last one recorded), no later item ever starts, and the job ends
cancelled with exactly k+1 results. -/
theorem cancel_stops_at_item_boundary (items : List ItemResult) (k : Nat)
    (hk : k + 1 < items.length) :
    (runJob (fun i => i == k) items).status = JobStatus.cancelled ∧
    (runJob (fun i => i == k) items).results = items.take (k + 1) ∧
    (runJob (fun i => i == k) items).currentIndex = k + 1 := by
  obtain ⟨h1, h2, h3⟩ := runLoop_cancel_at k k items
    { initJob items.length with status := JobStatus.running } rfl (by simp [initJob]) hk
  refine ⟨h1, ?_, ?_⟩
  · rw [runJob, h2]; simp [initJob]
  · rw [runJob, h3]; simp [initJob]

theorem cancel_stops_at_item_boundary_witness :
    (runJob (fun i => i == 1)
      [ItemResult.success "a" ["a.mp3"], ItemResult.success "b" ["b.mp3"],
       ItemResult.success "c" ["c.mp3"]]).status = JobStatus.cancelled ∧
    (runJob (fun i => i == 1)
      [ItemResult.success "a" ["a.mp3"], ItemResult.success "b" ["b.mp3"],
       ItemResult.success "c" ["c.mp3"]]).results =
      [ItemResult.success "a" ["a.mp3"], ItemResult.success "b" ["b.mp3"]] ∧
    (runJob (fun i => i == 1)
      [ItemResult.success "a" ["a.mp3"], ItemResult.success "b" ["b.mp3"],
       ItemResult.success "c" ["c.mp3"]]).results.length = 2 := by
  obtain ⟨h1, h2, _⟩ := cancel_stops_at_item_boundary
    [ItemResult.success "a" ["a.mp3"], ItemResult.success "b" ["b.mp3"],
     ItemResult.success "c" ["c.mp3"]] 1 (by norm_num)
  refine ⟨h1, ?_, ?_⟩
  · rw [h2]; rfl
  · rw [h2]; rfl

/-- Pairwise monotonicity between successive observable records: the
status rank, the current index and the number of results never decrease,
and a latched cancel request stays latched. -/
def RecordMono (a b : JobRecord) : Prop :=
  statusRank a.status ≤ statusRank b.status ∧
  a.currentIndex ≤ b.currentIndex ∧
  a.results.length ≤ b.results.length ∧
  (a.cancelRequested = true → b.cancelRequested = true)

theorem statusRank_le_two (st : JobStatus) : statusRank st ≤ 2 := by
  cases st <;> simp [statusRank]

theorem statusRank_finishJob (s : JobRecord) :
    statusRank (finishJob s).status = 2 := by
  simp only [finishJob]
  split_ifs <;> rfl

theorem runTrace_chain (cancel : Nat → Bool) :
    ∀ (items : List ItemResult) (s : JobRecord),
      List.Chain RecordMono s (runTrace cancel items s) := by
  intro items
  induction items with
  | nil =>
      intro s
      refine List.Chain.cons ?_ List.Chain.nil
      refine ⟨?_, le_refl _, ?_, ?_⟩
      · rw [statusRank_finishJob]; exact statusRank_le_two _
      · simp [finishJob]
      · intro h; simpa [finishJob] using h
  | cons r rest ih =>
      intro s
      simp only [runTrace]
      split_ifs with h
      · refine List.Chain.cons ⟨?_, le_refl _, ?_, ?_⟩ List.Chain.nil
        · exact statusRank_le_two _
        · simp [cancelJob]
        · intro hh; simpa [cancelJob] using hh
      · refine List.Chain.cons ⟨?_, ?_, ?_, ?_⟩ (ih (processItem cancel r s))
        · simp [processItem]
        · simp [processItem]
        · simp [processItem]
        · intro hh; simp [processItem, hh]

theorem runTrace_struct (cancel : Nat → Bool) :
    ∀ (items : List ItemResult) (s : JobRecord), s.status = JobStatus.running →
      ∃ pre term, runTrace cancel items s = pre ++ [term] ∧
        (∀ x ∈ pre, x.status = JobStatus.running) ∧
        term.status.isTerminal = true := by
  intro items
  induction items with
  | nil =>
      intro s hs
      refine ⟨[], finishJob s, rfl, by simp, ?_⟩
      simp only [finishJob]
      split_ifs <;> rfl
  | cons r rest ih =>
      intro s hs
      simp only [runTrace]
      split_ifs with h
      · exact ⟨[], cancelJob s, rfl, by simp, rfl⟩
      · obtain ⟨pre, term, heq, hpre, hterm⟩ :=
          ih (processItem cancel r s) (by simp [processItem, hs])
        refine ⟨processItem cancel r s :: pre, term, ?_, ?_, hterm⟩
        · rw [heq]; rfl
        · intro x hx
          rcases List.mem_cons.mp hx with hx | hx
          · rw [hx]; simp [processItem, hs]
          · exact hpre x hx

theorem runTrace_bound (cancel : Nat → Bool) :
    ∀ (items : List ItemResult) (s : JobRecord),
      s.results.length + items.length ≤ s.totalItems →
      ∀ x ∈ runTrace cancel items s, x.results.length ≤ x.totalItems := by
  intro items
  induction items with
  | nil =>
      intro s hle x hx
      simp only [runTrace, List.mem_singleton] at hx
      rw [hx]
      simpa [finishJob] using hle
  | cons r rest ih =>
      intro s hle x hx
      have hle' : s.results.length + (rest.length + 1) ≤ s.totalItems := by
        simpa using hle
      simp only [runTrace] at hx
      split_ifs at hx with h
      · simp only [List.mem_singleton] at hx
        rw [hx]
        simp only [cancelJob]
        omega
      · rcases List.mem_cons.mp hx with hx | hx
        · rw [hx]
          simp only [processItem, List.length_append, List.length_singleton]
          omega
        · refine ih (processItem cancel r s) ?_ x hx
          simp only [processItem, List.length_append, List.length_singleton]
          omega

/-- C8: along the observable record sequence of any job, the status rank,
the current index and the number of results never decrease, a latched
cancel request is never reset, the result count never exceeds the total,
and the sequence is exactly one queued record followed by running records
and one final terminal record — queued → running → exactly one of
completed, failed or cancelled, each transition occurring once and in
that order. -/
theorem job_lifecycle_invariants (cancel : Nat → Bool) (items : List ItemResult) :
    List.Chain' RecordMono (jobTrace cancel items) ∧
    (∀ x ∈ jobTrace cancel items, x.results.length ≤ x.totalItems) ∧
    (∃ mid term, jobTrace cancel items = initJob items.length :: (mid ++ [term]) ∧
      (initJob items.length).status = JobStatus.queued ∧
      (∀ x ∈ mid, x.status = JobStatus.running) ∧
      term.status.isTerminal = true ∧
      (∀ x ∈ mid, x.status.isTerminal = false)) := by
  refine ⟨?_, ?_, ?_⟩
  · show List.Chain RecordMono (initJob items.length)
      ({ initJob items.length with status := JobStatus.running } ::
        runTrace cancel items { initJob items.length with status := JobStatus.running })
    refine List.Chain.cons ⟨?_, le_refl _, le_refl _, fun h => h⟩
      (runTrace_chain cancel items _)
    simp [statusRank, initJob]
  · intro x hx
    rcases List.mem_cons.mp hx with hx | hx
    · rw [hx]; simp [initJob]
    · rcases List.mem_cons.mp hx with hx | hx
      · rw [hx]; simp [initJob]
      · exact runTrace_bound cancel items
          { initJob items.length with status := JobStatus.running }
          (by simp [initJob]) x hx
  · obtain ⟨pre, term, heq, hpre, hterm⟩ := runTrace_struct cancel items
      { initJob items.length with status := JobStatus.running } rfl
    refine ⟨{ initJob items.length with status := JobStatus.running } :: pre,
      term, ?_, rfl, ?_, hterm, ?_⟩
    · show initJob items.length ::
        { initJob items.length with status := JobStatus.running } ::
          runTrace cancel items
            { initJob items.length with status := JobStatus.running } = _
      rw [heq]; rfl
    · intro x hx
      rcases List.mem_cons.mp hx with hx | hx
      · rw [hx]
      · exact hpre x hx
    · intro x hx
      rcases List.mem_cons.mp hx with hx | hx
      · rw [hx]; rfl
      · rw [hpre x hx]; rfl

end Mixor
